import Mathlib

/-!
# Rank-encoding / decoding of token streams — formalisation

Shallow embedding of the core algorithm of `project5.cpp` and
`project5_decompress.cpp` (the two files share the tokenizer, frequency
aggregator, ranker and encoder verbatim; the second file adds the decoder).

Modelling conventions:
* C++ `std::string` tokens are Lean `String`; C++ `int` is Lean `Int`.
* The `unordered_map<string,int> tokenFrequency` is modelled by its value
  function `String → Int` (absent keys read as `0`, matching `operator[]`
  default-insertion); its key set after the first pass is the set of distinct
  nonempty tokens.  Its *iteration order* is unspecified in C++, so the vector
  handed to `std::sort` is some permutation of the frequency pairs; we fix one
  canonical order (`distinctTokens`, below) and prove separately that the sort
  result is the same for *every* permutation (determinism, spec §8).
* `std::sort` with the strict comparator `cppLess` produces the sequence
  sorted w.r.t. the complementary non-strict comparator
  `cppLE a b = !cppLess b a`; since `cppLess` here is a strict total order,
  that sequence is unique, and we realise it with `List.mergeSort cppLE`.
* `std::map<string,int> tokenPosition` is modelled as the association list
  built by the ranking loop (`position = 1; position++` per sorted entry);
  its keys are distinct, so `List.lookup` agrees with map lookup.
-/

/-- `isspace` of the C locale, as applied by both programs' character loops
(space, tab, newline, vertical tab, form feed, carriage return). -/
def isspace (c : Char) : Bool :=
  c = ' ' || c = '\t' || c = '\n' || c = '\x0b' || c = '\x0c' || c = '\r'

/-- The character loop shared by both passes of both programs: accumulate
non-whitespace characters into `token`, emit `token` at each whitespace
boundary and at end of input, skipping empty tokens (the `!token.empty()`
guard of `addToken` / `processToken`).  Returns the emitted token sequence. -/
def tokenizeAux (token : String) : List Char → List String
  | [] => if token.isEmpty then [] else [token]
  | c :: cs =>
    if isspace c then
      if token.isEmpty then tokenizeAux "" cs
      else token :: tokenizeAux "" cs
    else
      tokenizeAux (token.push c) cs

/-- Tokenizer: split the raw input into the ordered sequence of nonempty
whitespace-delimited tokens. -/
def tokenize (s : String) : List String :=
  tokenizeAux "" s.data

/-- `addToken` (both files): `if (!token.empty()) tokenFrequency[token]++;`,
on the value-function model of the `unordered_map`. -/
def addToken (tokenFrequency : String → Int) (token : String) : String → Int :=
  if token ≠ "" then
    fun t => if t = token then tokenFrequency t + 1 else tokenFrequency t
  else
    tokenFrequency

/-- Frequency aggregator: fold `addToken` over the token sequence, starting
from the empty map (all counts 0). -/
def tokenFrequencyOf (T : List String) : String → Int :=
  T.foldl addToken (fun _ => 0)

/-- The key set of `tokenFrequency` after the first pass: the distinct
nonempty tokens.  The order is one canonical choice of the `unordered_map`'s
unspecified iteration order (see the header comment and `ranker_deterministic`). -/
def distinctTokens (T : List String) : List String :=
  (T.filter (fun t => t ≠ "")).dedup

/-- The `vector<pair<string,int>> sortedTokens(tokenFrequency.begin(), ...)`
contents before sorting: one `(token, count)` pair per distinct token. -/
def freqPairs (T : List String) : List (String × Int) :=
  (distinctTokens T).map (fun t => (t, tokenFrequencyOf T t))

/-- The comparator lambda passed to `std::sort` in both files:
frequency descending, then token text ascending for ties. -/
def cppLess (a b : String × Int) : Bool :=
  if a.2 ≠ b.2 then decide (a.2 > b.2) else decide (a.1 < b.1)

/-- The non-strict order induced by `cppLess`: `std::sort`'s output is sorted
w.r.t. `fun a b => !cppLess b a`. -/
def cppLE (a b : String × Int) : Bool :=
  ! cppLess b a

/-- The sorted `(token, count)` vector produced by `std::sort` with `cppLess`. -/
def sortedTokens (T : List String) : List (String × Int) :=
  (freqPairs T).mergeSort cppLE

/-- The ranking loop of both files:
`int position = 1; for (pair : sortedTokens) tokenPosition[pair.first] = position++;`,
materialised as an association list (keys are distinct). -/
def buildTokenPosition (position : Int) : List (String × Int) → List (String × Int)
  | [] => []
  | p :: rest => (p.1, position) :: buildTokenPosition (position + 1) rest

/-- The `map<string,int> tokenPosition` (token → rank lookup). -/
def tokenPosition (T : List String) : List (String × Int) :=
  buildTokenPosition 1 (sortedTokens T)

/-- The `vector<string> tokens` of the decoder (rank → token lookup:
the token of rank `r` is `tokens[r-1]`). -/
def tokensVec (T : List String) : List String :=
  (sortedTokens T).map Prod.fst

/-- `processToken` (both files): look the token up in `tokenPosition`; on a
hit append its rank to `encodedText`; on a miss print an error to `cerr` and
return with `encodedText` unchanged (the token is dropped and the run
continues — there is no abort on this path). -/
def processToken (tokenPosition : List (String × Int)) (token : String)
    (encodedText : List Int) : List Int :=
  if token ≠ "" then
    match tokenPosition.lookup token with
    | some r => encodedText ++ [r]
    | none => encodedText
  else
    encodedText

/-- The encoding pass: fold `processToken` over the token sequence against a
given token → rank lookup. -/
def encodeWith (pos : List (String × Int)) (T : List String) : List Int :=
  T.foldl (fun acc t => processToken pos t acc) []

/-- The full encoding pass of both programs: encode the token sequence
against the lookup built from that same sequence. -/
def encodeText (T : List String) : List Int :=
  encodeWith (tokenPosition T) T

/-- The decoding loop of `project5_decompress.cpp`: for each `position` in
`encodedText`, if `position > 0 && position <= tokens.size()` emit
`tokens[position-1]`, else print an invalid-position error and `return 1` —
the program exits before the final `cout`, so nothing is printed.  `none`
models that aborted run (no partial output); `some out` the emitted tokens. -/
def decodeText (tokens : List String) : List Int → Option (List String)
  | [] => some []
  | position :: rest =>
    if 0 < position ∧ position ≤ (tokens.length : Int) then
      (decodeText tokens rest).map (fun out => tokens.getD (position.toNat - 1) "" :: out)
    else
      none

/-- The string actually printed by the decoder on success: the decoded tokens
joined by single spaces (`decodedText << " "` between words). -/
def decodedString (tokens : List String) (encoded : List Int) : Option String :=
  (decodeText tokens encoded).map (fun out => String.intercalate " " out)

/-! ## Properties of the comparator -/

/-- Characterisation of the non-strict comparator: `cppLE a b` holds iff `a`
precedes-or-equals `b` in the (count descending, token ascending) order. -/
lemma cppLE_iff (a b : String × Int) :
    cppLE a b = true ↔ (b.2 < a.2 ∨ (a.2 = b.2 ∧ a.1 ≤ b.1)) := by
  unfold cppLE cppLess
  by_cases h : b.2 = a.2
  · simp [h, not_lt]
  · have h2 : ¬ a.2 = b.2 := fun hx => h hx.symm
    simp only [if_pos h, Bool.not_eq_eq_eq_not, Bool.not_true, decide_eq_false_iff_not,
      not_lt, h2, false_and, or_false]
    constructor
    · intro hle
      exact lt_of_le_of_ne hle h
    · intro hlt
      exact le_of_lt hlt

/-- `cppLE` is total. -/
lemma cppLE_total (a b : String × Int) : cppLE a b || cppLE b a := by
  simp only [Bool.or_eq_true, cppLE_iff]
  rcases lt_trichotomy a.2 b.2 with h | h | h
  · exact Or.inr (Or.inl h)
  · rcases le_total a.1 b.1 with hs | hs
    · exact Or.inl (Or.inr ⟨h, hs⟩)
    · exact Or.inr (Or.inr ⟨h.symm, hs⟩)
  · exact Or.inl (Or.inl h)

/-- `cppLE` is transitive. -/
lemma cppLE_trans (a b c : String × Int) :
    cppLE a b → cppLE b c → cppLE a c := by
  simp only [cppLE_iff]
  rintro (h1 | ⟨e1, s1⟩) (h2 | ⟨e2, s2⟩)
  · exact Or.inl (h2.trans h1)
  · exact Or.inl (e2 ▸ h1)
  · exact Or.inl (e1 ▸ h2)
  · exact Or.inr ⟨e1.trans e2, s1.trans s2⟩

/-- `cppLE` is antisymmetric: distinct pairs never compare equal both ways
(the composite key is a strict total order, spec §3). -/
lemma cppLE_antisymm (a b : String × Int) :
    cppLE a b = true → cppLE b a = true → a = b := by
  simp only [cppLE_iff]
  rintro (h1 | ⟨e1, s1⟩) (h2 | ⟨e2, s2⟩)
  · exact absurd h1 (lt_asymm h2)
  · exact absurd h1 (e2 ▸ lt_irrefl _)
  · exact absurd h2 (e1 ▸ lt_irrefl _)
  · exact Prod.ext (le_antisymm s1 s2) e1

/-! ## Properties of the sort -/

/-- The sorted vector is a permutation of the frequency pairs. -/
lemma sortedTokens_perm (T : List String) : (sortedTokens T).Perm (freqPairs T) :=
  List.mergeSort_perm _ _

/-- The sorted vector is sorted w.r.t. `cppLE`. -/
lemma sortedTokens_pairwise (T : List String) :
    (sortedTokens T).Pairwise (fun a b => cppLE a b = true) :=
  List.sorted_mergeSort cppLE_trans cppLE_total (freqPairs T)

/-- Since `cppLE` is a total order, the sorted permutation of a list is
unique: sorting any two permutations of the same data gives the same list.
This is what makes the ranker deterministic despite the `unordered_map`'s
unspecified iteration order. -/
lemma mergeSort_cppLE_unique {l₁ l₂ : List (String × Int)} (h : l₁.Perm l₂) :
    l₁.mergeSort cppLE = l₂.mergeSort cppLE := by
  haveI : IsAntisymm (String × Int) (fun a b => cppLE a b = true) := ⟨cppLE_antisymm⟩
  exact List.eq_of_perm_of_sorted
    ((List.mergeSort_perm l₁ cppLE).trans (h.trans (List.mergeSort_perm l₂ cppLE).symm))
    (List.sorted_mergeSort cppLE_trans cppLE_total l₁)
    (List.sorted_mergeSort cppLE_trans cppLE_total l₂)

/-! ## Properties of the rank-table construction -/

/-- The ranking loop keeps the key column unchanged. -/
lemma buildTokenPosition_map_fst (l : List (String × Int)) (n : Int) :
    (buildTokenPosition n l).map Prod.fst = l.map Prod.fst := by
  induction l generalizing n with
  | nil => rfl
  | cons p rest ih => simp [buildTokenPosition, ih]

/-- The ranking loop keeps the length. -/
lemma buildTokenPosition_length (l : List (String × Int)) (n : Int) :
    (buildTokenPosition n l).length = l.length := by
  have := congrArg List.length (buildTokenPosition_map_fst l n)
  simpa using this

/-- The ranks assigned by the ranking loop, in order: `n, n+1, …`. -/
lemma buildTokenPosition_map_snd (l : List (String × Int)) (n : Int) :
    (buildTokenPosition n l).map Prod.snd
      = (List.range l.length).map (fun i : Nat => n + (i : Int)) := by
  induction l generalizing n with
  | nil => rfl
  | cons p rest ih =>
    calc (buildTokenPosition n (p :: rest)).map Prod.snd
        = n :: (buildTokenPosition (n + 1) rest).map Prod.snd := rfl
      _ = n :: (List.range rest.length).map (fun i : Nat => (n + 1) + (i : Int)) := by rw [ih]
      _ = (List.range (rest.length + 1)).map (fun i : Nat => n + (i : Int)) := ?_
    rw [List.range_succ_eq_map, List.map_cons, List.map_map]
    refine congrArg₂ List.cons (by simp) (List.map_congr_left fun i _ => ?_)
    simp only [Function.comp_apply, Nat.succ_eq_add_one]
    push_cast
    ring

/-- A successful lookup in the built rank table comes from a position `i` of
the underlying vector, carries rank `n + i`, and the entry at `i` has the
looked-up token as its key. -/
lemma buildTokenPosition_lookup_eq_some {l : List (String × Int)} {n : Int}
    {t : String} {r : Int}
    (h : (buildTokenPosition n l).lookup t = some r) :
    ∃ i : Nat, i < l.length ∧ r = n + (i : Int) ∧ (l.getD i ("", 0)).1 = t := by
  induction l generalizing n r with
  | nil => simp [buildTokenPosition] at h
  | cons p rest ih =>
    rw [buildTokenPosition, List.lookup_cons] at h
    by_cases hbeq : t = p.1
    · rw [show (t == p.1) = true from beq_iff_eq.mpr hbeq] at h
      simp only [Option.some.injEq] at h
      exact ⟨0, by simp, by simp [← h], by simp [hbeq]⟩
    · rw [show (t == p.1) = false from beq_eq_false_iff_ne.mpr hbeq] at h
      simp only at h
      obtain ⟨i, hi, hr, hg⟩ := ih h
      refine ⟨i + 1, by simpa using hi, ?_, by simpa using hg⟩
      rw [hr]
      push_cast
      ring

/-- Every key of the underlying vector is found by lookup in the built table. -/
lemma buildTokenPosition_lookup_isSome {l : List (String × Int)} {t : String}
    (n : Int) (h : t ∈ l.map Prod.fst) :
    ∃ r, (buildTokenPosition n l).lookup t = some r := by
  induction l generalizing n with
  | nil => simp at h
  | cons p rest ih =>
    rw [buildTokenPosition, List.lookup_cons]
    by_cases hbeq : t = p.1
    · rw [show (t == p.1) = true from beq_iff_eq.mpr hbeq]
      exact ⟨n, rfl⟩
    · rw [show (t == p.1) = false from beq_eq_false_iff_ne.mpr hbeq]
      exact ih (n + 1) (by simpa [hbeq] using h)

/-- When the keys are distinct, looking up the key at position `i` returns
exactly rank `n + i`. -/
lemma buildTokenPosition_lookup_of_getD {l : List (String × Int)}
    (hnd : (l.map Prod.fst).Nodup) {i : Nat} (hi : i < l.length) (n : Int) :
    (buildTokenPosition n l).lookup (l.getD i ("", 0)).1 = some (n + (i : Int)) := by
  induction l generalizing n i with
  | nil => simp at hi
  | cons p rest ih =>
    rw [List.map_cons, List.nodup_cons] at hnd
    obtain ⟨hps, hrest⟩ := hnd
    rw [buildTokenPosition, List.lookup_cons]
    cases i with
    | zero => simp
    | succ j =>
      have hj : j < rest.length := by simpa using hi
      have hmem : (rest.getD j ("", 0)).1 ∈ rest.map Prod.fst := by
        rw [List.getD_eq_getElem?_getD, List.getElem?_eq_getElem hj]
        exact List.mem_map_of_mem _ (List.getElem_mem hj)
      have hne : (rest.getD j ("", 0)).1 ≠ p.1 := fun hx => hps (hx ▸ hmem)
      rw [List.getD_cons_succ,
        show ((rest.getD j ("", 0)).1 == p.1) = false from beq_eq_false_iff_ne.mpr hne]
      simp only
      rw [ih hrest hj (n + 1)]
      congr 1
      push_cast
      ring

/-! ## Structural lemmas about the frequency pairs and the sorted vector -/

/-- The key column of the frequency pairs is the distinct-token list. -/
lemma freqPairs_map_fst (T : List String) :
    (freqPairs T).map Prod.fst = distinctTokens T := by
  unfold freqPairs
  rw [List.map_map, show (Prod.fst ∘ fun t => (t, tokenFrequencyOf T t)) = id from rfl]
  exact List.map_id _

/-- Every frequency pair carries the frequency of its own token. -/
lemma snd_of_mem_freqPairs {T : List String} {p : String × Int}
    (h : p ∈ freqPairs T) : p.2 = tokenFrequencyOf T p.1 := by
  obtain ⟨t, _, rfl⟩ := List.mem_map.mp h
  rfl

/-- The distinct-token list has no duplicates. -/
lemma distinctTokens_nodup (T : List String) : (distinctTokens T).Nodup :=
  List.nodup_dedup _

/-- The key column of the sorted vector has no duplicates. -/
lemma sortedTokens_map_fst_nodup (T : List String) :
    ((sortedTokens T).map Prod.fst).Nodup :=
  (((sortedTokens_perm T).map Prod.fst).nodup_iff).mpr
    (freqPairs_map_fst T ▸ distinctTokens_nodup T)

/-- The sorted vector has as many entries as there are distinct tokens. -/
lemma sortedTokens_length (T : List String) :
    (sortedTokens T).length = (distinctTokens T).length := by
  have h := (sortedTokens_perm T).length_eq
  rw [h, freqPairs, List.length_map]

/-- Every nonempty token of the input appears in the distinct-token list. -/
lemma mem_distinctTokens {T : List String} {t : String}
    (ht : t ∈ T) (hne : t ≠ "") : t ∈ distinctTokens T :=
  List.mem_dedup.mpr (List.mem_filter.mpr ⟨ht, by simpa using hne⟩)

/-- Every distinct token appears in the key column of the sorted vector. -/
lemma mem_sortedTokens_map_fst {T : List String} {t : String}
    (h : t ∈ distinctTokens T) : t ∈ (sortedTokens T).map Prod.fst :=
  ((sortedTokens_perm T).map Prod.fst).mem_iff.mpr (freqPairs_map_fst T ▸ h)

/-! ## Encoder lemmas -/

/-- `processToken` only ever appends to the accumulated output. -/
lemma processToken_append (pos : List (String × Int)) (t : String)
    (acc : List Int) :
    processToken pos t acc = acc ++ processToken pos t [] := by
  unfold processToken
  by_cases ht : t ≠ ""
  · rw [if_pos ht, if_pos ht]
    cases pos.lookup t <;> simp
  · rw [if_neg ht, if_neg ht]
    simp

/-- The encoding fold with an arbitrary accumulator prefix. -/
lemma foldl_processToken_acc (pos : List (String × Int)) (T : List String)
    (acc : List Int) :
    T.foldl (fun a t => processToken pos t a) acc = acc ++ encodeWith pos T := by
  induction T generalizing acc with
  | nil => simp [encodeWith]
  | cons t T ih =>
    rw [List.foldl_cons, ih, processToken_append]
    conv_rhs => rw [encodeWith, List.foldl_cons, ih (processToken pos t [])]
    rw [List.append_assoc]

/-- Unfolding the encoding pass one token at a time. -/
lemma encodeWith_cons (pos : List (String × Int)) (t : String) (T : List String) :
    encodeWith pos (t :: T) = processToken pos t [] ++ encodeWith pos T := by
  rw [encodeWith, List.foldl_cons, foldl_processToken_acc]

/-- When every token is nonempty and resolvable, the encoder is exactly the
positional map sending each token occurrence to its rank. -/
lemma encodeWith_eq_map (pos : List (String × Int)) (T : List String)
    (h : ∀ t ∈ T, t ≠ "" ∧ ∃ r, pos.lookup t = some r) :
    encodeWith pos T = T.map (fun t => (pos.lookup t).getD 0) := by
  induction T with
  | nil => rfl
  | cons t T ih =>
    obtain ⟨hne, r, hr⟩ := h t (List.mem_cons_self t T)
    rw [encodeWith_cons, List.map_cons,
      ih (fun x hx => h x (List.mem_cons_of_mem t hx)), hr]
    unfold processToken
    rw [if_pos hne, hr]
    rfl

/-- Every emitted code is the successful lookup of some input token. -/
lemma mem_encodeWith {pos : List (String × Int)} {T : List String} {r : Int}
    (h : r ∈ encodeWith pos T) : ∃ t ∈ T, pos.lookup t = some r := by
  induction T with
  | nil => simp [encodeWith] at h
  | cons t T ih =>
    rw [encodeWith_cons, List.mem_append] at h
    rcases h with h | h
    · unfold processToken at h
      by_cases hne : t ≠ ""
      · rw [if_pos hne] at h
        cases hl : pos.lookup t with
        | none => rw [hl] at h; simp at h
        | some v =>
          rw [hl] at h
          simp only [List.nil_append, List.mem_singleton] at h
          exact ⟨t, List.mem_cons_self t T, h ▸ hl⟩
      · rw [if_neg hne] at h
        simp at h
    · obtain ⟨x, hx, hxl⟩ := ih h
      exact ⟨x, List.mem_cons_of_mem t hx, hxl⟩

/-! ## Decoder lemmas -/

/-- When every code is a valid rank, the decoder emits exactly the token at
each rank, in order. -/
lemma decodeText_eq_map {toks : List String} {encoded : List Int}
    (h : ∀ r ∈ encoded, 0 < r ∧ r ≤ (toks.length : Int)) :
    decodeText toks encoded
      = some (encoded.map (fun r => toks.getD (r.toNat - 1) "")) := by
  induction encoded with
  | nil => rfl
  | cons r rest ih =>
    rw [decodeText, if_pos (h r (List.mem_cons_self r rest)),
      ih (fun x hx => h x (List.mem_cons_of_mem r hx))]
    rfl

/-- If any code is an invalid rank, the whole decode fails with no output. -/
lemma decodeText_eq_none {toks : List String} {encoded : List Int}
    (h : ∃ r ∈ encoded, ¬(0 < r ∧ r ≤ (toks.length : Int))) :
    decodeText toks encoded = none := by
  induction encoded with
  | nil => simp at h
  | cons a rest ih =>
    obtain ⟨r, hmem, hbad⟩ := h
    rw [decodeText]
    rcases List.mem_cons.mp hmem with rfl | hr
    · rw [if_neg hbad]
    · by_cases ha : 0 < a ∧ a ≤ (toks.length : Int)
      · rw [if_pos ha, ih ⟨r, hr, hbad⟩]
        rfl
      · rw [if_neg ha]

/-! ## The rank table as seen by encoder and decoder together -/

/-- For every nonempty token of the input, the token → rank lookup succeeds,
the rank is in `[1, D]`, and the rank → token direction maps the rank back to
the token. -/
lemma token_lookup_spec (T : List String) {t : String}
    (ht : t ∈ T) (hne : t ≠ "") :
    ∃ r, (tokenPosition T).lookup t = some r ∧ 0 < r ∧
      r ≤ ((tokensVec T).length : Int) ∧ (tokensVec T).getD (r.toNat - 1) "" = t := by
  have hmem : t ∈ (sortedTokens T).map Prod.fst :=
    mem_sortedTokens_map_fst (mem_distinctTokens ht hne)
  obtain ⟨r, hr⟩ := buildTokenPosition_lookup_isSome (l := sortedTokens T) 1 hmem
  obtain ⟨i, hi, hri, hfst⟩ := buildTokenPosition_lookup_eq_some (n := 1) hr
  refine ⟨r, hr, by omega, ?_, ?_⟩
  · rw [tokensVec, List.length_map]
    omega
  · have hits : r.toNat - 1 = i := by omega
    rw [hits, tokensVec, List.getD_eq_getElem?_getD,
      List.getElem?_eq_getElem (by simpa using hi)]
    rw [List.getElem_map]
    rw [List.getD_eq_getElem?_getD, List.getElem?_eq_getElem hi] at hfst
    simpa using hfst

/-- Decoding inverts encoding whenever every token of `T` is nonempty,
resolvable, and its rank points back at it. -/
lemma roundtrip_aux (pos : List (String × Int)) (toks : List String)
    (T : List String)
    (h : ∀ t ∈ T, t ≠ "" ∧ ∃ r, pos.lookup t = some r ∧ 0 < r ∧
      r ≤ (toks.length : Int) ∧ toks.getD (r.toNat - 1) "" = t) :
    decodeText toks (encodeWith pos T) = some T := by
  induction T with
  | nil => rfl
  | cons t T ih =>
    obtain ⟨hne, r, hr, hpos, hle, hback⟩ := h t (List.mem_cons_self t T)
    have hpt : processToken pos t [] = [r] := by
      unfold processToken
      rw [if_pos hne, hr]
      rfl
    rw [encodeWith_cons, hpt, List.singleton_append, decodeText,
      if_pos ⟨hpos, hle⟩, ih (fun x hx => h x (List.mem_cons_of_mem t hx))]
    show some (toks.getD (r.toNat - 1) "" :: T) = some (t :: T)
    rw [hback]

/-- Reading the rank → token vector at a valid index reads the key column of
the sorted vector. -/
lemma tokensVec_getD (T : List String) {i : Nat}
    (hi : i < (sortedTokens T).length) :
    (tokensVec T).getD i "" = ((sortedTokens T).getD i ("", 0)).1 := by
  rw [tokensVec, List.getD_eq_getElem?_getD,
    List.getElem?_eq_getElem (by simpa using hi), List.getElem_map,
    List.getD_eq_getElem?_getD, List.getElem?_eq_getElem hi]
  rfl

/-- The tokenizer never emits an empty token (the `!token.empty()` guards). -/
lemma tokenizeAux_ne_empty (cs : List Char) (token : String) :
    ∀ t ∈ tokenizeAux token cs, t ≠ "" := by
  induction cs generalizing token with
  | nil =>
    intro t ht
    rw [tokenizeAux] at ht
    by_cases he : token.isEmpty
    · rw [if_pos he] at ht
      simp at ht
    · rw [if_neg he] at ht
      rw [List.mem_singleton] at ht
      exact ht ▸ fun hx => he ((String.isEmpty_iff token).mpr hx)
  | cons c cs ih =>
    intro t ht
    rw [tokenizeAux] at ht
    by_cases hs : isspace c
    · rw [if_pos hs] at ht
      by_cases he : token.isEmpty
      · rw [if_pos he] at ht
        exact ih "" t ht
      · rw [if_neg he] at ht
        rcases List.mem_cons.mp ht with rfl | hmem
        · exact fun hx => he ((String.isEmpty_iff t).mpr hx)
        · exact ih "" t hmem
    · rw [if_neg hs] at ht
      exact ih (token.push c) t ht

/-- Every token produced by the tokenizer is nonempty (spec §3: a Token is
never empty), so the nonemptiness hypotheses below hold for tokenized input. -/
lemma tokenize_ne_empty (s : String) : ∀ t ∈ tokenize s, t ≠ "" :=
  tokenizeAux_ne_empty s.data ""

/-! ## Claim theorems -/

/-- Claim C1: for every token sequence `T` (tokens are nonempty by the data
model), decoding the code sequence produced by encoding `T` with the rank
table built from `T`, against that same rank table, yields exactly `T` —
same tokens, same order. -/
theorem encode_decode_roundtrip (T : List String) (h : ∀ t ∈ T, t ≠ "") :
    decodeText (tokensVec T) (encodeText T) = some T := by
  refine roundtrip_aux (tokenPosition T) (tokensVec T) T fun t ht => ?_
  obtain ⟨r, hr, h1, h2, h3⟩ := token_lookup_spec T ht (h t ht)
  exact ⟨h t ht, r, hr, h1, h2, h3⟩

/-- Witness for C1 at a concrete input with a repeat. -/
theorem encode_decode_roundtrip_witness :
    (∀ t ∈ (["the", "cat", "the"] : List String), t ≠ "") ∧
      decodeText (tokensVec ["the", "cat", "the"]) (encodeText ["the", "cat", "the"])
        = some ["the", "cat", "the"] :=
  ⟨by decide, encode_decode_roundtrip ["the", "cat", "the"] (by decide)⟩

/-- Claim C2: encoding a token sequence `T` against the token → rank lookup
built from `T` produces exactly one rank per token occurrence: the code
sequence has the same length as `T`. -/
theorem encode_length_preservation (T : List String) (h : ∀ t ∈ T, t ≠ "") :
    (encodeText T).length = T.length := by
  have h2 : ∀ t ∈ T, t ≠ "" ∧ ∃ r, (tokenPosition T).lookup t = some r := by
    intro t ht
    obtain ⟨r, hr, _⟩ := token_lookup_spec T ht (h t ht)
    exact ⟨h t ht, r, hr⟩
  rw [encodeText, encodeWith_eq_map _ _ h2, List.length_map]

/-- Witness for C2 at a concrete input. -/
theorem encode_length_preservation_witness :
    (∀ t ∈ (["a", "b", "a"] : List String), t ≠ "") ∧
      (encodeText ["a", "b", "a"]).length = (["a", "b", "a"] : List String).length :=
  ⟨by decide, encode_length_preservation ["a", "b", "a"] (by decide)⟩

/-- Claim C3, evaluated at the failing input: `processToken` on a token with
no entry in the token → rank lookup (here the empty lookup and token `"a"`)
prints to `cerr` and returns with the output *unchanged* — the token is
silently dropped and the run continues, so the encoded output is shorter
than the input; there is no fatal abort, contradicting the claim (the spec
itself flags this reference behaviour as a latent bug in §9). -/
theorem unresolvable_token_silently_dropped :
    processToken [] "a" [] = [] ∧ encodeWith [] ["a"] = [] ∧
      (encodeWith [] ["a"]).length ≠ (["a"] : List String).length := by
  refine ⟨by decide, by decide, by decide⟩

/-- Claim C4: the decoding loop emits the token at each rank when every rank
is within `[1, D]`, and fails — producing no output at all, not even partial
output — as soon as any rank lies outside `[1, D]`. -/
theorem decode_rank_check (toks : List String) (encoded : List Int) :
    ((∀ r ∈ encoded, 1 ≤ r ∧ r ≤ (toks.length : Int)) →
      decodeText toks encoded
        = some (encoded.map (fun r => toks.getD (r.toNat - 1) ""))) ∧
    ((∃ r ∈ encoded, ¬(1 ≤ r ∧ r ≤ (toks.length : Int))) →
      decodeText toks encoded = none ∧ decodedString toks encoded = none) := by
  constructor
  · intro h
    refine decodeText_eq_map fun r hr => ⟨?_, (h r hr).2⟩
    have := (h r hr).1
    omega
  · intro h
    obtain ⟨r, hr, hbad⟩ := h
    have hn : decodeText toks encoded = none := by
      refine decodeText_eq_none ⟨r, hr, fun hc => hbad ⟨?_, hc.2⟩⟩
      have := hc.1
      omega
    exact ⟨hn, by rw [decodedString, hn]; rfl⟩

/-- Witness for C4: a fully valid code decodes to the ranked tokens; a code
with an out-of-range rank decodes to nothing. -/
theorem decode_rank_check_witness :
    (∀ r ∈ ([2, 1] : List Int), 1 ≤ r ∧ r ≤ ((["a", "b"] : List String).length : Int)) ∧
    decodeText ["a", "b"] [2, 1] = some ["b", "a"] ∧
    decodeText ["a"] [2] = none :=
  ⟨by decide, (decode_rank_check ["a", "b"] [2, 1]).1 (by decide),
    ((decode_rank_check ["a"] [2]).2 ⟨2, by decide, by decide⟩).1⟩

/-- Claim C5: the ranker assigns, in sorted order, exactly the ranks
`1, 2, …, D` where `D` is the number of distinct tokens — every integer in
`[1, D]` is used exactly once, with no gaps and no repeats. -/
theorem rank_totality (T : List String) :
    (tokenPosition T).map Prod.snd
      = (List.range (distinctTokens T).length).map (fun i : Nat => (i : Int) + 1) := by
  rw [tokenPosition, buildTokenPosition_map_snd, sortedTokens_length]
  refine List.map_congr_left fun i _ => ?_
  omega

/-- Claim C6: whenever two distinct tokens have equal occurrence frequency,
the lexicographically smaller token receives the smaller rank (frequency
descending, lexicographic ascending tie-break). -/
theorem tie_break_lexicographic (T : List String) (t1 t2 : String) (r1 r2 : Int)
    (h1 : (tokenPosition T).lookup t1 = some r1)
    (h2 : (tokenPosition T).lookup t2 = some r2)
    (hfreq : tokenFrequencyOf T t1 = tokenFrequencyOf T t2)
    (hlt : t1 < t2) : r1 < r2 := by
  rw [tokenPosition] at h1 h2
  obtain ⟨i1, hi1, hr1, hf1⟩ := buildTokenPosition_lookup_eq_some h1
  obtain ⟨i2, hi2, hr2, hf2⟩ := buildTokenPosition_lookup_eq_some h2
  rw [List.getD_eq_getElem?_getD, List.getElem?_eq_getElem hi1,
    Option.getD_some] at hf1
  rw [List.getD_eq_getElem?_getD, List.getElem?_eq_getElem hi2,
    Option.getD_some] at hf2
  have hs1 : ((sortedTokens T)[i1]).2 = tokenFrequencyOf T t1 := by
    have hm := snd_of_mem_freqPairs
      ((sortedTokens_perm T).mem_iff.mp (List.getElem_mem hi1))
    rw [hm, hf1]
  have hs2 : ((sortedTokens T)[i2]).2 = tokenFrequencyOf T t2 := by
    have hm := snd_of_mem_freqPairs
      ((sortedTokens_perm T).mem_iff.mp (List.getElem_mem hi2))
    rw [hm, hf2]
  have hlt12 : i1 < i2 := by
    by_contra hcon
    have hne12 : t1 ≠ t2 := ne_of_lt hlt
    have hii : i1 ≠ i2 := by
      intro he
      subst he
      exact hne12 (hf1.symm.trans hf2)
    have hlt21 : i2 < i1 := by omega
    have hp := List.pairwise_iff_getElem.mp (sortedTokens_pairwise T)
      i2 i1 hi2 hi1 hlt21
    rw [cppLE_iff] at hp
    rcases hp with hbad | ⟨_, hle⟩
    · rw [hs1, hs2, hfreq] at hbad
      exact lt_irrefl _ hbad
    · rw [hf1, hf2] at hle
      exact absurd hlt (not_lt.mpr hle)
  rw [hr1, hr2]
  omega

/-- `String.ltb` does not reduce definitionally, so the sorted vector of the
two-token witness input is computed here once by hand: both tokens occur
once, so the lexicographic tie-break puts `"a"` first. -/
lemma sortedTokens_two_tokens : sortedTokens ["b", "a"] = [("a", 1), ("b", 1)] := by
  have hlt : ¬ ("b" < "a") := by
    rw [String.lt_iff_toList_lt]
    decide
  have hpw : List.Pairwise (fun a b => cppLE a b = true)
      ([("a", 1), ("b", 1)] : List (String × Int)) := by
    rw [List.pairwise_cons]
    refine ⟨?_, List.pairwise_singleton _ _⟩
    intro p hp
    rw [List.mem_singleton] at hp
    subst hp
    unfold cppLE cppLess
    simp [hlt]
  have hperm : (freqPairs ["b", "a"]).Perm ([("a", 1), ("b", 1)] : List (String × Int)) := by
    rw [show freqPairs ["b", "a"] = [("b", 1), ("a", 1)] from rfl]
    exact List.Perm.swap ("a", 1) ("b", 1) []
  rw [sortedTokens]
  calc (freqPairs ["b", "a"]).mergeSort cppLE
      = ([("a", 1), ("b", 1)] : List (String × Int)).mergeSort cppLE :=
        mergeSort_cppLE_unique hperm
    _ = [("a", 1), ("b", 1)] := List.mergeSort_of_sorted hpw

/-- Witness for C6: in `["b", "a"]` both tokens occur once; `"a" < "b"` and
indeed rank("a") = 1 < 2 = rank("b"). -/
theorem tie_break_lexicographic_witness :
    ((tokenPosition ["b", "a"]).lookup "a" = some 1 ∧
     (tokenPosition ["b", "a"]).lookup "b" = some 2 ∧
     tokenFrequencyOf ["b", "a"] "a" = tokenFrequencyOf ["b", "a"] "b" ∧
     "a" < "b") ∧ (1 : Int) < 2 :=
  have hlk1 : (tokenPosition ["b", "a"]).lookup "a" = some 1 := by
    rw [tokenPosition, sortedTokens_two_tokens]
    decide
  have hlk2 : (tokenPosition ["b", "a"]).lookup "b" = some 2 := by
    rw [tokenPosition, sortedTokens_two_tokens]
    decide
  have hfreq : tokenFrequencyOf ["b", "a"] "a" = tokenFrequencyOf ["b", "a"] "b" := by
    decide
  have hab : "a" < "b" := by
    rw [String.lt_iff_toList_lt]
    decide
  ⟨⟨hlk1, hlk2, hfreq, hab⟩,
    tie_break_lexicographic ["b", "a"] "a" "b" 1 2 hlk1 hlk2 hfreq hab⟩

/-- Claim C7: the ranker is deterministic.  Whatever order the
`unordered_map` yields its `(token, count)` pairs in — any permutation `l` of
the frequency pairs — sorting gives the same sorted vector, hence the same
token → rank and rank → token lookups: the pipeline is a function of the
input alone. -/
theorem ranker_deterministic (T : List String) (l : List (String × Int))
    (h : l.Perm (freqPairs T)) :
    l.mergeSort cppLE = sortedTokens T ∧
    buildTokenPosition 1 (l.mergeSort cppLE) = tokenPosition T ∧
    (l.mergeSort cppLE).map Prod.fst = tokensVec T := by
  have he : l.mergeSort cppLE = sortedTokens T := by
    rw [sortedTokens]
    exact mergeSort_cppLE_unique h
  refine ⟨he, ?_, ?_⟩
  · rw [he, tokenPosition]
  · rw [he, tokensVec]

/-- Witness for C7: a transposed iteration order of the frequency pairs of
`["b", "a"]` sorts to the same vector. -/
theorem ranker_deterministic_witness :
    ([("a", 1), ("b", 1)] : List (String × Int)).Perm (freqPairs ["b", "a"]) ∧
    ([("a", 1), ("b", 1)] : List (String × Int)).mergeSort cppLE
      = sortedTokens ["b", "a"] :=
  ⟨by decide, (ranker_deterministic ["b", "a"] [("a", 1), ("b", 1)] (by decide)).1⟩

/-- Claim C8: empty input is not an error.  Zero tokens yield an
all-zero frequency map, an empty distinct-token list, an empty frequency-pair
vector, an empty sorted vector, empty rank-table lookups, and an empty code
sequence; decoding an empty code sequence (against any table) yields empty
output; every component is total on the empty case. -/
theorem empty_input_empty_outputs :
    tokenize "" = [] ∧
    (∀ t, tokenFrequencyOf [] t = 0) ∧
    distinctTokens [] = [] ∧
    freqPairs [] = [] ∧
    sortedTokens [] = [] ∧
    tokenPosition [] = [] ∧
    tokensVec [] = [] ∧
    encodeText [] = [] ∧
    (∀ toks : List String, decodeText toks [] = some []) ∧
    decodeText (tokensVec []) (encodeText []) = some [] ∧
    decodedString (tokensVec []) (encodeText []) = some "" := by
  have hs : sortedTokens [] = [] := by
    rw [sortedTokens]
    exact List.mergeSort_nil
  refine ⟨rfl, fun _ => rfl, rfl, rfl, hs, ?_, ?_, rfl, fun _ => rfl, rfl, rfl⟩
  · rw [tokenPosition, hs]
    rfl
  · rw [tokensVec, hs]
    rfl

/-- Claim C9: the rank table is a bijection between tokens and ranks,
materialised as two lookups of equal size `D`; the token → rank lookup sends
`t` to `r` exactly when `r ∈ [1, D]` and the rank → token lookup sends `r`
back to `t` — both directions are read off the one sorted vector. -/
theorem rank_table_bijective (T : List String) :
    (tokenPosition T).length = (distinctTokens T).length ∧
    (tokensVec T).length = (distinctTokens T).length ∧
    (∀ t r, (tokenPosition T).lookup t = some r ↔
      (1 ≤ r ∧ r ≤ ((tokensVec T).length : Int) ∧
        (tokensVec T).getD (r.toNat - 1) "" = t)) := by
  have hlen : (tokensVec T).length = (sortedTokens T).length := by
    rw [tokensVec, List.length_map]
  refine ⟨?_, ?_, ?_⟩
  · rw [tokenPosition, buildTokenPosition_length, sortedTokens_length]
  · rw [hlen, sortedTokens_length]
  · intro t r
    constructor
    · intro h
      rw [tokenPosition] at h
      obtain ⟨i, hi, hr, hf⟩ := buildTokenPosition_lookup_eq_some h
      refine ⟨by omega, by rw [hlen]; omega, ?_⟩
      rw [show r.toNat - 1 = i by omega, tokensVec_getD T hi]
      exact hf
    · rintro ⟨hge, hle, hback⟩
      rw [hlen] at hle
      have hi : r.toNat - 1 < (sortedTokens T).length := by omega
      have hlk := buildTokenPosition_lookup_of_getD
        (sortedTokens_map_fst_nodup T) hi 1
      rw [tokensVec_getD T hi] at hback
      rw [tokenPosition, ← hback, hlk]
      congr 1
      omega

/-- Witness for C9: for input `["a"]`, looking up `"a"` yields rank 1, and
rank 1 points back at `"a"`. -/
theorem rank_table_bijective_witness :
    (tokenPosition ["a"]).lookup "a" = some 1 ∧
    (1 ≤ (1 : Int) ∧ (1 : Int) ≤ ((tokensVec ["a"]).length : Int) ∧
      (tokensVec ["a"]).getD ((1 : Int).toNat - 1) "" = "a") :=
  have h : (tokenPosition ["a"]).lookup "a" = some 1 := by
    rw [tokenPosition, sortedTokens]
    rw [show freqPairs ["a"] = [("a", 1)] from rfl, List.mergeSort_singleton]
    decide
  ⟨h, ((rank_table_bijective ["a"]).2.2 "a" 1).mp h⟩

/-- Claim C10 (implicit): every rank the encoder appends is a value stored in
the token → rank lookup, hence lies in `[1, D]`; consequently, on an
encoder-produced code sequence the decoder's invalid-rank branch is
unreachable and the decode succeeds. -/
theorem encoder_output_always_decodable (T : List String) :
    (∀ r ∈ encodeText T, 1 ≤ r ∧ r ≤ ((tokensVec T).length : Int)) ∧
    (decodeText (tokensVec T) (encodeText T)).isSome := by
  have hr : ∀ r ∈ encodeText T, 0 < r ∧ r ≤ ((tokensVec T).length : Int) := by
    intro r hmem
    rw [encodeText] at hmem
    obtain ⟨t, _, hlk⟩ := mem_encodeWith hmem
    rw [tokenPosition] at hlk
    obtain ⟨i, hi, hri, _⟩ := buildTokenPosition_lookup_eq_some hlk
    refine ⟨by omega, ?_⟩
    rw [tokensVec, List.length_map]
    omega
  refine ⟨fun r hm => ⟨by have := (hr r hm).1; omega, (hr r hm).2⟩, ?_⟩
  rw [decodeText_eq_map hr]
  rfl

/-- Witness for C10: for input `["a"]` the encoder emits rank 1, within
`[1, 1]`, and the decode of the encoder output succeeds. -/
theorem encoder_output_always_decodable_witness :
    ((1 : Int) ∈ encodeText ["a"]) ∧
    (1 ≤ (1 : Int) ∧ (1 : Int) ≤ ((tokensVec ["a"]).length : Int)) ∧
    (decodeText (tokensVec ["a"]) (encodeText ["a"])).isSome :=
  have hmem : (1 : Int) ∈ encodeText ["a"] := by
    rw [encodeText, tokenPosition, sortedTokens]
    rw [show freqPairs ["a"] = [("a", 1)] from rfl, List.mergeSort_singleton]
    decide
  ⟨hmem, (encoder_output_always_decodable ["a"]).1 1 hmem,
    (encoder_output_always_decodable ["a"]).2⟩
